import Mathlib

/-
  Verification development for the Work-time-allocation generator
  (src/main.py, src/utils.py).

  Shallow embedding conventions:
  * numpy float arrays are modelled as lists of exact rationals; arrays that
    hold integer hour counts are modelled as lists of integers.
  * numpy random draws (dirichlet, normal, uniform, randint, ...) are modelled
    as explicit parameters ("oracle" values handed to the function), since the
    claims under study quantify over every random draw.
  * fallible code returns Option / Except; an unbounded while loop is modelled
    either by well-founded recursion (when the loop provably terminates) or by
    an explicit fuel parameter (when termination is part of the question).
-/

/- ----------------------------------------------------------------
   src/utils.py, adjust_hours_to_target (lines 41-81)

   hours is a numpy array of per-project hour counts; every caller in the
   repository passes integer-valued arrays (np.round output or integer column
   sums), and the claims restrict attention to integer or integer-valued
   inputs, so hours is embedded as List Int and round(desired_total, 0) is the
   identity on the embedded desired_total : Int.
   ---------------------------------------------------------------- -/

/-- numpy argmin: index of the first occurrence of the minimal entry. -/
def argminIdx : List Int → Nat
  | [] => 0
  | x :: xs =>
    if xs = [] then 0
    else if x ≤ xs.getD (argminIdx xs) 0 then 0
    else argminIdx xs + 1

/-- numpy argmax: index of the first occurrence of the maximal entry. -/
def argmaxIdx : List Int → Nat
  | [] => 0
  | x :: xs =>
    if xs = [] then 0
    else if xs.getD (argmaxIdx xs) 0 ≤ x then 0
    else argmaxIdx xs + 1

/-- One iteration of the fix-up while loop of adjust_hours_to_target
(utils.py lines 70-79): if the running sum is below the target, add one hour
at the argmin position, otherwise remove one hour at the argmax position. -/
def fixupStep (desired_total : Int) (l : List Int) : List Int :=
  if l.sum < desired_total then
    l.set (argminIdx l) (l.getD (argminIdx l) 0 + 1)
  else
    l.set (argmaxIdx l) (l.getD (argmaxIdx l) 0 - 1)

/-- The fix-up while loop of adjust_hours_to_target (utils.py lines 70-79),
returning the final array together with the number of iterations executed.
The loop terminates because each iteration moves the sum by exactly one toward
the target.  The empty-list guard is unreachable from adjust_hours_to_target
(the source would raise on argmin of an empty array); it only makes the
recursion total. -/
def fixupLoop (desired_total : Int) (l : List Int) : List Int × Nat :=
  if h : l.sum = desired_total ∨ l = [] then (l, 0)
  else
    let r := fixupLoop desired_total (fixupStep desired_total l)
    (r.1, r.2 + 1)
termination_by (l.sum - desired_total).natAbs
decreasing_by
  push_neg at h
  obtain ⟨hsum, hnil⟩ := h
  have hset : ∀ (xs : List Int) (i : Nat) (v : Int), i < xs.length →
      (xs.set i v).sum = xs.sum - xs.getD i 0 + v := by
    intro xs
    induction xs with
    | nil => intro i v hi; simp at hi
    | cons a as ih =>
      intro i v hi
      cases i with
      | zero => simp [List.sum_cons]; ring
      | succ j =>
        have hj : j < as.length := by simpa using Nat.lt_of_succ_lt_succ hi
        simp only [List.set_cons_succ, List.sum_cons, List.getD_cons_succ, ih j v hj]
        ring
  have hargmin : ∀ (xs : List Int), xs ≠ [] → argminIdx xs < xs.length := by
    intro xs
    induction xs with
    | nil => intro hx; exact absurd rfl hx
    | cons a as ih =>
      intro hx
      by_cases h2 : as = []
      · subst h2; simp [argminIdx]
      · by_cases h3 : a ≤ as.getD (argminIdx as) 0
        · simp only [argminIdx, if_neg h2, if_pos h3, List.length_cons]
          omega
        · simp only [argminIdx, if_neg h2, if_neg h3, List.length_cons]
          exact Nat.succ_lt_succ (ih h2)
  have hargmax : ∀ (xs : List Int), xs ≠ [] → argmaxIdx xs < xs.length := by
    intro xs
    induction xs with
    | nil => intro hx; exact absurd rfl hx
    | cons a as ih =>
      intro hx
      by_cases h2 : as = []
      · subst h2; simp [argmaxIdx]
      · by_cases h3 : as.getD (argmaxIdx as) 0 ≤ a
        · simp only [argmaxIdx, if_neg h2, if_pos h3, List.length_cons]
          omega
        · simp only [argmaxIdx, if_neg h2, if_neg h3, List.length_cons]
          exact Nat.succ_lt_succ (ih h2)
  simp only [fixupStep]
  by_cases hlt : l.sum < desired_total
  · rw [if_pos hlt, hset l (argminIdx l) _ (hargmin l hnil)]
    omega
  · rw [if_neg hlt, hset l (argmaxIdx l) _ (hargmax l hnil)]
    omega

/-- adjust_hours_to_target (utils.py lines 41-81).  Returns none when the
source would divide by zero at line 63 (proportions = hours / hours.sum()
with hours.sum() == 0, reached whenever excess is nonzero).  In exact
arithmetic np.floor(hours[i] / S * excess) is Int.fdiv (hours[i] * excess) S
(floor division). -/
def adjust_hours_to_target (hours : List Int) (desired_total : Int) : Option (List Int) :=
  let excess := hours.sum - desired_total
  if excess = 0 then some hours
  else if hours.sum = 0 then none
  else
    let reduction := hours.map (fun h => Int.fdiv (h * excess) hours.sum)
    let adjusted_hours := List.zipWith (fun h r => h - r) hours reduction
    some (fixupLoop desired_total adjusted_hours).1

/-- Number of fix-up iterations executed by adjust_hours_to_target on the
given input (0 when the loop is not reached). -/
def adjust_fixup_count (hours : List Int) (desired_total : Int) : Nat :=
  let excess := hours.sum - desired_total
  if excess = 0 then 0
  else if hours.sum = 0 then 0
  else
    let reduction := hours.map (fun h => Int.fdiv (h * excess) hours.sum)
    let adjusted_hours := List.zipWith (fun h r => h - r) hours reduction
    (fixupLoop desired_total adjusted_hours).2

/- ----------------------------------------------------------------
   src/utils.py, generate_hours_distribution (lines 85-123)

   The Dirichlet base draw (line 90) and the per-type noise draw
   (lines 95-104) are random; they are modelled by the explicit parameters
   dist_sample (the base proportion vector drawn from the Dirichlet
   distribution) and noise_raw (the vector drawn by the selected sampler,
   before the absolute value of line 108 is taken).
   ---------------------------------------------------------------- -/

/-- The five noise distributions accepted by generate_hours_distribution. -/
def supportedNoiseTypes : List String :=
  ["uniform", "gaussian", "exponential", "lognormal", "random"]

/-- The two noise combination operators accepted by generate_hours_distribution. -/
def supportedNoiseOperands : List String := ["add", "mult"]

/-- Lines 110-123 of utils.py: combine the base draw with the (already
absolute-valued) noise factors, force entries whose base draw is exactly zero
back to zero, and renormalize.  The unsupported-operand error message of
line 116 interpolates noise_type (a slip in the source, reproduced here). -/
def apply_noise (dist_sample noise_factors : List ℚ) (noise_operand noise_type : String) :
    Except String (List ℚ) :=
  if noise_operand = "add" then
    let altered_dist := List.zipWith (fun d n => d + n) dist_sample noise_factors
    let forced := List.zipWith (fun d a => if d = 0 then 0 else a) dist_sample altered_dist
    Except.ok (forced.map (fun x => x / forced.sum))
  else if noise_operand = "mult" then
    let altered_dist := List.zipWith (fun d n => d * (1 + n)) dist_sample noise_factors
    let forced := List.zipWith (fun d a => if d = 0 then 0 else a) dist_sample altered_dist
    Except.ok (forced.map (fun x => x / forced.sum))
  else Except.error ("Unsupported noise operand: " ++ noise_type)

/-- generate_hours_distribution (utils.py lines 85-123).  With noise None or 0
the raw Dirichlet draw is returned unchanged (lines 91-92) before any
validation of noise_type / noise_operand takes place.  The "random" sampler
(line 104) scales its raw draw by the noise magnitude; the other four samplers
are modelled by the raw draw itself. -/
def generate_hours_distribution (dist_sample : List ℚ) (noise : Option ℚ)
    (noise_type noise_operand : String) (noise_raw : List ℚ) : Except String (List ℚ) :=
  match noise with
  | none => Except.ok dist_sample
  | some v =>
    if v = 0 then Except.ok dist_sample
    else
      let drawn : Except String (List ℚ) :=
        if noise_type = "uniform" then Except.ok noise_raw
        else if noise_type = "gaussian" then Except.ok noise_raw
        else if noise_type = "exponential" then Except.ok noise_raw
        else if noise_type = "lognormal" then Except.ok noise_raw
        else if noise_type = "random" then Except.ok (noise_raw.map (fun x => x * v))
        else Except.error ("Unsupported noise type: " ++ noise_type)
      match drawn with
      | Except.error e => Except.error e
      | Except.ok nf => apply_noise dist_sample (nf.map (fun x => |x|)) noise_operand noise_type

/- ----------------------------------------------------------------
   Minimum workable-hours envelopes:
   allocate_hours, utils.py lines 200-205, and
   verify_allocation_constraints, utils.py lines 343-351.

   The full/mid holiday dictionaries produced by get_holidays are modelled as
   count functions week -> number of holidays of that label in that week
   (dict.get(week, 0)).  np.round rounds half to even.
   ---------------------------------------------------------------- -/

/-- np.round on a scalar: round half to even. -/
def roundHalfEven (q : ℚ) : Int :=
  let f := Int.floor q
  let r := q - (f : ℚ)
  if r < 1 / 2 then f
  else if 1 / 2 < r then f + 1
  else if f % 2 = 0 then f else f + 1

/-- The per-week minimum envelope list computed by allocate_hours
(utils.py lines 200-201, indexed week - init_start_week over
weeks = range(start_week, end_week + 1), then rounded at line 205). -/
def alloc_min_workable_week_hours (min_week_hours number_working_days : ℚ)
    (full_holidays mid_holidays : Nat → Nat) (init_start_week end_week : Nat) : List Int :=
  (List.range' init_start_week (end_week + 1 - init_start_week)).map (fun week =>
    let min_hours_per_day := min_week_hours / number_working_days
    roundHalfEven (min_hours_per_day * number_working_days -
      ((full_holidays week : ℚ) * min_hours_per_day +
        (mid_holidays week : ℚ) * min_hours_per_day / 2)))

/-- The per-week minimum envelope list recomputed independently by
verify_allocation_constraints (utils.py lines 343-351: min_weeks[idx] for
idx, week in enumerate(weeks), rounded at line 351). -/
def verify_min_weeks (min_week_hours number_working_days : ℚ)
    (full_holidays mid_holidays : Nat → Nat) (start_week end_week : Nat) : List Int :=
  (List.range' start_week (end_week + 1 - start_week)).map (fun week =>
    let hours_per_day := min_week_hours / number_working_days
    roundHalfEven (hours_per_day * number_working_days -
      ((full_holidays week : ℚ) * hours_per_day +
        (mid_holidays week : ℚ) * hours_per_day / 2)))

/- ----------------------------------------------------------------
   allocate_hours, per-rolling-window scaling loop (utils.py lines 228-237).

   State: the list of (reduced_workable_hours[week], min_workable_week_hours
   [week - init_start_week]) pairs for the weeks of the current window.  The
   loop runs while the window total exceeds target_rolling_hours; whether it
   terminates is exactly the question of claim C1, so it is modelled with an
   explicit fuel parameter.
   ---------------------------------------------------------------- -/

/-- Total of the window: sum of reduced_workable_hours over the window weeks. -/
def windowTotal (s : List (ℚ × ℚ)) : ℚ := (s.map Prod.fst).sum

/-- One pass of the scaling loop body (utils.py lines 229-235): scale every
week of the window by target/total, clamped below at that week's minimum. -/
def scaleStep (target_rolling_hours : ℚ) (s : List (ℚ × ℚ)) : List (ℚ × ℚ) :=
  let scale_factor := target_rolling_hours / windowTotal s
  s.map (fun p => (max (p.1 * scale_factor) p.2, p.2))

/-- The scaling while loop (utils.py lines 228-237) with fuel: returns some
final state if the loop exits within the given number of iterations, none
otherwise. -/
def scaleLoop : Nat → ℚ → List (ℚ × ℚ) → Option (List (ℚ × ℚ))
  | 0, _, _ => none
  | fuel + 1, target_rolling_hours, s =>
    if target_rolling_hours < windowTotal s then
      scaleLoop fuel target_rolling_hours (scaleStep target_rolling_hours s)
    else some s

/-- The scaling loop terminates on the given window state: some fuel suffices. -/
def ScaleTerminates (target_rolling_hours : ℚ) (s : List (ℚ × ℚ)) : Prop :=
  ∃ fuel r, scaleLoop fuel target_rolling_hours s = some r

/- ----------------------------------------------------------------
   allocate_hours, repair loops:
   rolling-window average repair (utils.py lines 260-276) and
   yearly overtime repair (utils.py lines 286-306).

   Both loops act on the vector of weekly totals (each adjust_hours_to_target
   call redistributes a week's column so that the week total drops by exactly
   one hour); the embedding therefore tracks the weekly totals and minimums.
   np.random.randint over the eligible weeks is modelled by an oracle
   o : Nat -> Nat consumed one value per iteration (reduced mod the number of
   eligible weeks).
   ---------------------------------------------------------------- -/

/-- Indices of weeks whose total strictly exceeds their minimum
(weekly_totals[weekly_totals > min_workable_week_hours...]). -/
def validWeeks (totals mins : List Int) : List Nat :=
  (List.range totals.length).filter (fun i => mins.getD i 0 < totals.getD i 0)

/-- Rolling-window average repair loop (utils.py lines 260-276), with fuel:
while the mean of the window's weekly totals exceeds
average_rolling_week_hours, pick a random eligible week and reduce its total
by one hour; break when no eligible week remains.  (The source guards the
while with an equivalent outer if.) -/
def rollingRepair : Nat → (Nat → Nat) → ℚ → List Int → List Int → List Int
  | 0, _, _, totals, _ => totals
  | fuel + 1, o, average_rolling_week_hours, totals, mins =>
    if average_rolling_week_hours < (totals.sum : ℚ) / (totals.length : ℚ) then
      let valid_weeks := validWeeks totals mins
      if valid_weeks = [] then totals
      else
        let idx_week := valid_weeks.getD (o 0 % valid_weeks.length) 0
        rollingRepair fuel (fun k => o (k + 1)) average_rolling_week_hours
          (totals.set idx_week (totals.getD idx_week 0 - 1)) mins
    else totals

/-- Yearly overtime repair loop (utils.py lines 292-306): while the tracked
yearly_overtime counter exceeds allowed_yearly_overtime, pick a random
eligible week, reduce its total by one hour and decrement the counter; break
when no eligible week remains.  Terminates because the counter strictly
decreases toward the bound. -/
def yearlyRepair (o : Nat → Nat) (allowed_yearly_overtime yearly_overtime : Int)
    (totals mins : List Int) : List Int :=
  if h : allowed_yearly_overtime < yearly_overtime then
    let valid_weeks := validWeeks totals mins
    if valid_weeks = [] then totals
    else
      let idx_week := valid_weeks.getD (o 0 % valid_weeks.length) 0
      yearlyRepair (fun k => o (k + 1)) allowed_yearly_overtime (yearly_overtime - 1)
        (totals.set idx_week (totals.getD idx_week 0 - 1)) mins
  else totals
termination_by (yearly_overtime - allowed_yearly_overtime).toNat
decreasing_by omega

/- ----------------------------------------------------------------
   src/main.py line 126 calling src/utils.py verify_allocation_constraints
   (signature at utils.py lines 312-316): a model of Python positional /
   keyword argument binding for that call site.
   ---------------------------------------------------------------- -/

/-- Parameters of verify_allocation_constraints, in signature order
(utils.py lines 312-316). -/
def verify_allocation_constraints_params : List String :=
  ["allocation_df", "year", "holiday_dates", "min_week_hours", "max_week_hours",
   "average_rolling_week_hours", "tracking_rolling_weeks", "average_week_hours",
   "max_yearly_overtime", "yearly_overtime_variance", "project_distribution",
   "dirichlet_factor", "dirichlet_noise", "number_working_days", "start_week", "end_week"]

/-- Parameters of verify_allocation_constraints that carry a default value. -/
def verify_allocation_constraints_defaults : List String :=
  ["number_working_days", "start_week", "end_week"]

/-- Number of positional arguments passed at the call site main.py lines
126-129 (allocation_df, year, holiday_dates, min_week_hours, max_week_hours,
average_rolling_week_hours, tracking_rolling_weeks, average_week_hours,
max_yearly_overtime, yearly_overtime_variance). -/
def main_call_positional_count : Nat := 10

/-- Keyword arguments passed at the call site main.py lines 126-129. -/
def main_call_keyword_names : List String :=
  ["number_working_days", "start_week", "end_week"]

/-- Python call binding: a parameter is left unbound (raising TypeError:
missing required positional argument) when it is past the positional
arguments, not named by a keyword argument, and has no default. -/
def missingRequiredParams (params defaults : List String) (npos : Nat)
    (kws : List String) : List String :=
  (params.drop npos).filter (fun p => ¬ (p ∈ kws ∨ p ∈ defaults))

/-- The unbound required parameters of the validation call in main.py. -/
def main_verify_call_missing : List String :=
  missingRequiredParams verify_allocation_constraints_params
    verify_allocation_constraints_defaults main_call_positional_count main_call_keyword_names

/-- The validation step of main.py (line 126): the call raises TypeError
before verify_allocation_constraints runs whenever a required parameter is
unbound, so execution never reaches the verdict (line 130) or the export to
a spreadsheet (line 134). -/
def main_validation_step : Except String Unit :=
  if main_verify_call_missing = [] then Except.ok ()
  else Except.error "TypeError: verify_allocation_constraints() missing required positional arguments"

/- ----------------------------------------------------------------
   Helper lemmas: lists, set, argmin/argmax, fixup loop.
   ---------------------------------------------------------------- -/

theorem list_sum_set (xs : List Int) (i : Nat) (v : Int) (hi : i < xs.length) :
    (xs.set i v).sum = xs.sum - xs.getD i 0 + v := by
  induction xs generalizing i with
  | nil => simp at hi
  | cons a as ih =>
    cases i with
    | zero => simp [List.sum_cons]; ring
    | succ j =>
      have hj : j < as.length := by simpa using Nat.lt_of_succ_lt_succ hi
      simp only [List.set_cons_succ, List.sum_cons, List.getD_cons_succ, ih j hj]
      ring

theorem argminIdx_lt (xs : List Int) (hx : xs ≠ []) : argminIdx xs < xs.length := by
  induction xs with
  | nil => exact absurd rfl hx
  | cons a as ih =>
    by_cases h2 : as = []
    · subst h2; simp [argminIdx]
    · by_cases h3 : a ≤ as.getD (argminIdx as) 0
      · simp only [argminIdx, if_neg h2, if_pos h3, List.length_cons]; omega
      · simp only [argminIdx, if_neg h2, if_neg h3, List.length_cons]
        exact Nat.succ_lt_succ (ih h2)

theorem argmaxIdx_lt (xs : List Int) (hx : xs ≠ []) : argmaxIdx xs < xs.length := by
  induction xs with
  | nil => exact absurd rfl hx
  | cons a as ih =>
    by_cases h2 : as = []
    · subst h2; simp [argmaxIdx]
    · by_cases h3 : as.getD (argmaxIdx as) 0 ≤ a
      · simp only [argmaxIdx, if_neg h2, if_pos h3, List.length_cons]; omega
      · simp only [argmaxIdx, if_neg h2, if_neg h3, List.length_cons]
        exact Nat.succ_lt_succ (ih h2)

theorem fixupStep_length (t : Int) (l : List Int) : (fixupStep t l).length = l.length := by
  unfold fixupStep
  split <;> exact List.length_set ..

theorem fixupStep_sum_lt (t : Int) (l : List Int) (hnil : l ≠ []) (hlt : l.sum < t) :
    (fixupStep t l).sum = l.sum + 1 := by
  rw [fixupStep, if_pos hlt, list_sum_set l _ _ (argminIdx_lt l hnil)]
  ring

theorem fixupStep_sum_ge (t : Int) (l : List Int) (hnil : l ≠ []) (hge : ¬ l.sum < t) :
    (fixupStep t l).sum = l.sum - 1 := by
  rw [fixupStep, if_neg hge, list_sum_set l _ _ (argmaxIdx_lt l hnil)]
  ring

theorem fixupLoop_spec : ∀ (n : Nat) (t : Int) (l : List Int),
    (l.sum - t).natAbs = n → l ≠ [] →
    (fixupLoop t l).1.sum = t ∧ (fixupLoop t l).1.length = l.length ∧
      (fixupLoop t l).2 = (l.sum - t).natAbs := by
  intro n
  induction n using Nat.strong_induction_on with
  | _ n ih =>
    intro t l hn hnil
    rw [fixupLoop]
    by_cases h : l.sum = t ∨ l = []
    · have ht : l.sum = t := h.resolve_right hnil
      rw [dif_pos h]
      exact ⟨ht, rfl, by omega⟩
    · rw [dif_neg h]
      dsimp only
      push_neg at h
      obtain ⟨hne, _⟩ := h
      have hnil2 : fixupStep t l ≠ [] := by
        intro c
        have hl := fixupStep_length t l
        rw [c] at hl
        exact hnil (List.eq_nil_of_length_eq_zero hl.symm)
      by_cases hlt : l.sum < t
      · have hs := fixupStep_sum_lt t l hnil hlt
        have hdec : ((fixupStep t l).sum - t).natAbs < n := by omega
        have hrec := ih _ hdec t (fixupStep t l) rfl hnil2
        refine ⟨hrec.1, ?_, ?_⟩
        · rw [hrec.2.1, fixupStep_length]
        · rw [hrec.2.2]; omega
      · have hs := fixupStep_sum_ge t l hnil hlt
        have hdec : ((fixupStep t l).sum - t).natAbs < n := by omega
        have hrec := ih _ hdec t (fixupStep t l) rfl hnil2
        refine ⟨hrec.1, ?_, ?_⟩
        · rw [hrec.2.1, fixupStep_length]
        · rw [hrec.2.2]; omega

theorem sum_zipWith_sub : ∀ (a b : List Int), a.length = b.length →
    (List.zipWith (fun x y => x - y) a b).sum = a.sum - b.sum := by
  intro a
  induction a with
  | nil =>
    intro b h
    have hb : b = [] := List.eq_nil_of_length_eq_zero (by simpa using h.symm)
    subst hb
    simp
  | cons x xs ih =>
    intro b h
    cases b with
    | nil => simp at h
    | cons y ys =>
      have hlen : xs.length = ys.length := by simpa using h
      simp only [List.zipWith_cons_cons, List.sum_cons, ih ys hlen]
      ring

theorem int_fdiv_bounds (a S : Int) (hS : 0 < S) :
    S * Int.fdiv a S ≤ a ∧ a < S * Int.fdiv a S + S := by
  rw [Int.fdiv_eq_ediv a (le_of_lt hS)]
  have h1 := Int.ediv_add_emod a S
  have h2 := Int.emod_nonneg a (ne_of_gt hS)
  have h3 := Int.emod_lt_of_pos a hS
  omega

theorem sum_map_fdiv_le (hs : List Int) (e S : Int) (hS : 0 < S) :
    S * (hs.map (fun h => Int.fdiv (h * e) S)).sum ≤ e * hs.sum := by
  induction hs with
  | nil => simp
  | cons x xs ih =>
    have hb := (int_fdiv_bounds (x * e) S hS).1
    have hcomm : e * (x + xs.sum) = x * e + e * xs.sum := by ring
    simp only [List.map_cons, List.sum_cons, mul_add, hcomm]
    linarith

theorem lt_sum_map_fdiv (hs : List Int) (e S : Int) (hS : 0 < S) (hnil : hs ≠ []) :
    e * hs.sum < S * ((hs.map (fun h => Int.fdiv (h * e) S)).sum + hs.length) := by
  induction hs with
  | nil => exact absurd rfl hnil
  | cons x xs ih =>
    have hb := (int_fdiv_bounds (x * e) S hS).2
    have hcomm : e * (x + xs.sum) = x * e + e * xs.sum := by ring
    have hexp : S * ((Int.fdiv (x * e) S + (xs.map (fun h => Int.fdiv (h * e) S)).sum) +
        ((x :: xs).length : Int)) =
        (S * Int.fdiv (x * e) S + S) +
          S * ((xs.map (fun h => Int.fdiv (h * e) S)).sum + (xs.length : Int)) := by
      push_cast [List.length_cons]
      ring
    simp only [List.map_cons, List.sum_cons, hcomm, hexp]
    by_cases h2 : xs = []
    · subst h2
      simp only [List.map_nil, List.sum_nil, List.length_nil]
      push_cast
      linarith
    · linarith [ih h2]

theorem sum_map_fdiv_nonneg (hs : List Int) (e S : Int) (hpos : ∀ h ∈ hs, 0 ≤ h)
    (he : 0 ≤ e) (hS : 0 ≤ S) : 0 ≤ (hs.map (fun h => Int.fdiv (h * e) S)).sum := by
  apply List.sum_nonneg
  intro x hx
  obtain ⟨h, hh, rfl⟩ := List.mem_map.mp hx
  exact Int.fdiv_nonneg (mul_nonneg (hpos h hh) he) hS

/- ----------------------------------------------------------------
   Claims C2, C7, C10: adjust_hours_to_target.
   ---------------------------------------------------------------- -/

/-- C2, counterexample to the claim as stated: the all-zero vector with a
nonzero integer target is a vector of non-negative hour values with an
integer desired total, yet adjust_hours_to_target divides by
hours.sum() == 0 (utils.py line 63) and returns no vector at all, so in
particular no vector of the input's length summing to the target. -/
theorem claim_C2_counterexample : adjust_hours_to_target [0] 1 = none := rfl

/-- C2 (amended): for every vector of non-negative hour values whose sum is
positive or already equal to the (integer-valued, hence already rounded)
desired total, adjust_hours_to_target returns a vector of the same length as
the input whose entries sum exactly to the target. -/
theorem claim_C2 (hours : List Int) (desired_total : Int)
    (hpos : ∀ h ∈ hours, 0 ≤ h)
    (hvalid : 0 < hours.sum ∨ hours.sum = desired_total) :
    ∃ r, adjust_hours_to_target hours desired_total = some r ∧
      r.length = hours.length ∧ r.sum = desired_total := by
  by_cases hexc : hours.sum - desired_total = 0
  · refine ⟨hours, ?_, rfl, by omega⟩
    simp only [adjust_hours_to_target]
    rw [if_pos hexc]
  · have hsum : hours.sum ≠ 0 := by rcases hvalid with h | h <;> omega
    have hS : 0 < hours.sum := by rcases hvalid with h | h <;> omega
    have hnil : hours ≠ [] := by
      intro c
      rw [c] at hS
      simp at hS
    set reduction :=
      hours.map (fun h => Int.fdiv (h * (hours.sum - desired_total)) hours.sum) with hredd
    set adjusted := List.zipWith (fun h r => h - r) hours reduction with hadj
    have hlenr : reduction.length = hours.length := List.length_map ..
    have hlen : adjusted.length = hours.length := by
      rw [hadj, List.length_zipWith, hlenr, min_self]
    have hannil : adjusted ≠ [] := by
      intro c
      rw [c] at hlen
      exact hnil (List.eq_nil_of_length_eq_zero hlen.symm)
    have heq : adjust_hours_to_target hours desired_total =
        some (fixupLoop desired_total adjusted).1 := by
      simp only [adjust_hours_to_target]
      rw [if_neg hexc, if_neg hsum]
    obtain ⟨h1, h2, _⟩ := fixupLoop_spec ((adjusted.sum - desired_total).natAbs)
      desired_total adjusted rfl hannil
    exact ⟨_, heq, by rw [h2, hlen], h1⟩

/-- C2, witness for the amended theorem at hours = [5, 3], target 6. -/
theorem claim_C2_witness :
    (∀ h ∈ ([5, 3] : List Int), 0 ≤ h) ∧
      ∃ r, adjust_hours_to_target [5, 3] 6 = some r ∧
        r.length = ([5, 3] : List Int).length ∧ r.sum = 6 :=
  ⟨by decide, claim_C2 [5, 3] 6 (by decide) (Or.inl (by decide))⟩

/-- C10: adjust_hours_to_target divides by sum(hours) with no zero guard and
the division is reached whenever excess is nonzero: on non-negative input the
division-by-zero branch (modelled as none) is taken exactly when the
precondition - sum(hours) positive, or sum(hours) already equal to the
(rounded) target - fails, i.e. exactly for the all-zero vector with a nonzero
desired total. -/
theorem claim_C10 (hours : List Int) (desired_total : Int)
    (hpos : ∀ h ∈ hours, 0 ≤ h) :
    adjust_hours_to_target hours desired_total = none ↔
      ¬ (0 < hours.sum ∨ hours.sum = desired_total) := by
  have hnn : 0 ≤ hours.sum := List.sum_nonneg hpos
  simp only [adjust_hours_to_target]
  by_cases hexc : hours.sum - desired_total = 0
  · rw [if_pos hexc]
    constructor
    · intro c
      simp at c
    · intro c
      exact absurd (Or.inr (by omega)) c
  · rw [if_neg hexc]
    by_cases hz : hours.sum = 0
    · rw [if_pos hz]
      constructor
      · intro _
        rintro (h | h) <;> omega
      · intro _
        rfl
    · rw [if_neg hz]
      constructor
      · intro c
        simp at c
      · intro c
        exact absurd (Or.inl (by omega)) c

/-- C10, witness at the all-zero vector [0, 0] with desired total 5. -/
theorem claim_C10_witness :
    (∀ h ∈ ([0, 0] : List Int), 0 ≤ h) ∧
      (adjust_hours_to_target [0, 0] 5 = none ↔
        ¬ (0 < ([0, 0] : List Int).sum ∨ ([0, 0] : List Int).sum = 5)) :=
  ⟨by decide, claim_C10 [0, 0] 5 (by decide)⟩

/-- C7, counterexample to the claimed bound: for hours = [3, 3, 3] and
desired total 10 the excess is -1, the proportional floor-reduction
overshoots to [4, 4, 4], and the fix-up loop runs 2 iterations although
the absolute excess is 1. -/
theorem claim_C7_counterexample :
    adjust_fixup_count [3, 3, 3] 10 = 2 ∧
      (([3, 3, 3] : List Int).sum - 10).natAbs = 1 := by
  constructor
  · have e1 : fixupLoop 10 ([3, 3, 4] : List Int) = ([3, 3, 4], 0) := by
      rw [fixupLoop]
      rw [dif_pos (by decide : ([3, 3, 4] : List Int).sum = 10 ∨ ([3, 3, 4] : List Int) = [])]
    have s2 : fixupStep 10 ([3, 4, 4] : List Int) = [3, 3, 4] := by decide
    have e2 : fixupLoop 10 ([3, 4, 4] : List Int) = ([3, 3, 4], 1) := by
      rw [fixupLoop]
      rw [dif_neg (by decide : ¬ (([3, 4, 4] : List Int).sum = 10 ∨ ([3, 4, 4] : List Int) = []))]
      rw [s2, e1]
    have s3 : fixupStep 10 ([4, 4, 4] : List Int) = [3, 4, 4] := by decide
    have e3 : fixupLoop 10 ([4, 4, 4] : List Int) = ([3, 3, 4], 2) := by
      rw [fixupLoop]
      rw [dif_neg (by decide : ¬ (([4, 4, 4] : List Int).sum = 10 ∨ ([4, 4, 4] : List Int) = []))]
      rw [s3, e2]
    have hred : adjust_fixup_count [3, 3, 3] 10 = (fixupLoop 10 ([4, 4, 4] : List Int)).2 := by
      simp only [adjust_fixup_count]
      rw [if_neg (by decide : ¬ (([3, 3, 3] : List Int).sum - 10 = 0)),
        if_neg (by decide : ¬ (([3, 3, 3] : List Int).sum = 0))]
      rfl
    rw [hred, e3]
  · decide

/-- C7 (amended): each fix-up iteration moves the running sum by exactly 1
toward the target; the number of fix-up iterations equals the absolute
difference between the floor-reduced sum and the target, which is strictly
less than the number of entries, and is bounded by the excess
sum(hours) - desired_total when that excess is non-negative (the bound
abs(excess) can be exceeded when the excess is negative). -/
theorem claim_C7 (hours : List Int) (desired_total : Int)
    (hpos : ∀ h ∈ hours, 0 ≤ h) (hS : 0 < hours.sum) :
    (∀ l : List Int, l ≠ [] → l.sum ≠ desired_total →
        ((fixupStep desired_total l).sum - desired_total).natAbs + 1 =
          (l.sum - desired_total).natAbs) ∧
    adjust_fixup_count hours desired_total < hours.length ∧
    (0 ≤ hours.sum - desired_total →
      (adjust_fixup_count hours desired_total : Int) ≤ hours.sum - desired_total) := by
  refine ⟨?_, ?_⟩
  · intro l hl hne
    by_cases hlt : l.sum < desired_total
    · rw [fixupStep_sum_lt _ _ hl hlt]
      omega
    · rw [fixupStep_sum_ge _ _ hl hlt]
      omega
  · have hnil : hours ≠ [] := by
      intro c
      rw [c] at hS
      simp at hS
    have hlen0 : 0 < hours.length := List.length_pos.mpr hnil
    by_cases hexc : hours.sum - desired_total = 0
    · have hcount : adjust_fixup_count hours desired_total = 0 := by
        simp only [adjust_fixup_count]
        rw [if_pos hexc]
      rw [hcount]
      exact ⟨hlen0, fun _ => by omega⟩
    · have hz : hours.sum ≠ 0 := by omega
      set e := hours.sum - desired_total with he
      set reduction := hours.map (fun h => Int.fdiv (h * e) hours.sum) with hredd
      set adjusted := List.zipWith (fun h r => h - r) hours reduction with hadj
      have hlenr : reduction.length = hours.length := List.length_map ..
      have hlen : adjusted.length = hours.length := by
        rw [hadj, List.length_zipWith, hlenr, min_self]
      have hannil : adjusted ≠ [] := by
        intro c
        rw [c] at hlen
        exact hnil (List.eq_nil_of_length_eq_zero hlen.symm)
      have hcount : adjust_fixup_count hours desired_total =
          (adjusted.sum - desired_total).natAbs := by
        simp only [adjust_fixup_count]
        rw [if_neg hexc, if_neg hz]
        exact (fixupLoop_spec _ desired_total adjusted rfl hannil).2.2
      have hsumadj : adjusted.sum = hours.sum - reduction.sum :=
        sum_zipWith_sub hours reduction hlenr.symm
      have hred_le : hours.sum * reduction.sum ≤ e * hours.sum :=
        sum_map_fdiv_le hours e hours.sum hS
      have hred_lt : e * hours.sum <
          hours.sum * (reduction.sum + (hours.length : Int)) :=
        lt_sum_map_fdiv hours e hours.sum hS hnil
      have h1 : reduction.sum ≤ e := by
        rw [mul_comm e hours.sum] at hred_le
        exact le_of_mul_le_mul_left hred_le hS
      have h2 : e < reduction.sum + (hours.length : Int) := by
        rw [mul_comm e hours.sum] at hred_lt
        exact lt_of_mul_lt_mul_left hred_lt (le_of_lt hS)
      constructor
      · rw [hcount]
        omega
      · intro hegood
        have hrnn : 0 ≤ reduction.sum :=
          sum_map_fdiv_nonneg hours e hours.sum hpos (by omega) (le_of_lt hS)
        rw [hcount]
        omega

/-- C7, witness for the amended theorem at hours = [2, 1], target 2. -/
theorem claim_C7_witness :
    (∀ h ∈ ([2, 1] : List Int), 0 ≤ h) ∧
      ((∀ l : List Int, l ≠ [] → l.sum ≠ 2 →
          ((fixupStep 2 l).sum - 2).natAbs + 1 = (l.sum - 2).natAbs) ∧
        adjust_fixup_count [2, 1] 2 < ([2, 1] : List Int).length ∧
        (0 ≤ ([2, 1] : List Int).sum - 2 →
          (adjust_fixup_count [2, 1] 2 : Int) ≤ ([2, 1] : List Int).sum - 2)) :=
  ⟨by decide, claim_C7 [2, 1] 2 (by decide) (by decide)⟩

/- ----------------------------------------------------------------
   Claim C6: the allocator's minimum envelope formula (utils.py lines
   200-205) and the validator's independent recomputation (lines 343-351).
   ---------------------------------------------------------------- -/

/-- C6: for every week, every holiday registry (count functions) and every
configuration, the per-week minimum workable-hours envelope computed by
allocate_hours equals, entry for entry, the minimum envelope recomputed
independently by verify_allocation_constraints: the two formula copies have
not drifted. -/
theorem claim_C6 (min_week_hours number_working_days : ℚ)
    (full_holidays mid_holidays : Nat → Nat) (start_week end_week : Nat) :
    alloc_min_workable_week_hours min_week_hours number_working_days full_holidays
        mid_holidays start_week end_week =
      verify_min_weeks min_week_hours number_working_days full_holidays
        mid_holidays start_week end_week := rfl

/- ----------------------------------------------------------------
   Claim C1: the per-rolling-window scaling while loop (utils.py 228-237).
   ---------------------------------------------------------------- -/

theorem scaleLoop_none_of_fixed (t : ℚ) (s : List (ℚ × ℚ))
    (hgt : t < windowTotal s) (hfix : scaleStep t s = s) :
    ∀ fuel, scaleLoop fuel t s = none := by
  intro fuel
  induction fuel with
  | zero => rfl
  | succ n ih =>
    simp only [scaleLoop]
    rw [if_pos hgt, hfix]
    exact ih

/-- C1: the scaling while loop does NOT terminate for every input.  On the
window state [(36, 36)] (one week, envelope 36, minimum 36) with target
35.5 = 1 * average_rolling_week_hours - reachable e.g. from
min_week_hours = 35.6, average_rolling_week_hours = 35.8, one-week windows,
no holidays, since the minimum envelope 35.6 rounds to 36 - every week is
pinned at its minimum, the loop body leaves the state unchanged, and the
loop condition total > target stays true forever: no amount of fuel makes
the loop exit, although the claim says it stops when no further scaling is
possible. -/
theorem claim_C1_scaling_loop_diverges :
    ¬ ScaleTerminates (71 / 2) [((36 : ℚ), (36 : ℚ))] := by
  have hfix : scaleStep (71 / 2) [((36 : ℚ), (36 : ℚ))] = [((36 : ℚ), (36 : ℚ))] := by
    simp only [scaleStep, windowTotal, List.map_cons, List.map_nil, List.sum_cons,
      List.sum_nil]
    norm_num
  have hgt : (71 / 2 : ℚ) < windowTotal [((36 : ℚ), (36 : ℚ))] := by
    simp only [windowTotal, List.map_cons, List.map_nil, List.sum_cons, List.sum_nil]
    norm_num
  rintro ⟨fuel, r, hr⟩
  rw [scaleLoop_none_of_fixed _ _ hgt hfix fuel] at hr
  exact Option.noConfusion hr

/- ----------------------------------------------------------------
   Claim C3: the validation call in main.py.
   ---------------------------------------------------------------- -/

/-- C3: the call to verify_allocation_constraints at main.py line 126 passes
10 positional arguments and the keywords number_working_days, start_week,
end_week, leaving the required positional parameters project_distribution,
dirichlet_factor and dirichlet_noise unbound; Python therefore raises
TypeError at the validation step, so whenever execution reaches that step no
validity verdict and no spreadsheet is ever produced. -/
theorem claim_C3 :
    main_verify_call_missing =
        ["project_distribution", "dirichlet_factor", "dirichlet_noise"] ∧
      ∃ e, main_validation_step = Except.error e := by
  refine ⟨rfl, ?_⟩
  exact ⟨_, rfl⟩

/- ----------------------------------------------------------------
   Helper lemmas: getD / set, validWeeks, repair-loop invariants.
   ---------------------------------------------------------------- -/

theorem getD_set_self (l : List Int) (i : Nat) (v : Int) (hi : i < l.length) :
    (l.set i v).getD i 0 = v := by
  induction l generalizing i with
  | nil => simp at hi
  | cons a as ih =>
    cases i with
    | zero => rfl
    | succ j =>
      simp only [List.set_cons_succ, List.getD_cons_succ]
      exact ih j (by simpa using Nat.lt_of_succ_lt_succ hi)

theorem getD_set_other (l : List Int) (i j : Nat) (v : Int) (hij : j ≠ i) :
    (l.set i v).getD j 0 = l.getD j 0 := by
  induction l generalizing i j with
  | nil => rfl
  | cons a as ih =>
    cases i with
    | zero =>
      cases j with
      | zero => exact absurd rfl hij
      | succ k => simp [List.getD_cons_succ]
    | succ i2 =>
      cases j with
      | zero => simp [List.getD_cons_zero]
      | succ k =>
        simp only [List.set_cons_succ, List.getD_cons_succ]
        exact ih i2 k (fun c => hij (by rw [c]))

theorem getD_mem_of_lt {α : Type} (l : List α) (n : Nat) (d : α) (h : n < l.length) :
    l.getD n d ∈ l := by
  induction l generalizing n with
  | nil => simp at h
  | cons a as ih =>
    cases n with
    | zero => simp
    | succ k =>
      simp only [List.getD_cons_succ]
      exact List.mem_cons_of_mem a (ih k (by simpa using Nat.lt_of_succ_lt_succ h))

theorem mem_validWeeks (totals mins : List Int) (i : Nat) :
    i ∈ validWeeks totals mins ↔
      i < totals.length ∧ mins.getD i 0 < totals.getD i 0 := by
  simp [validWeeks, List.mem_filter, List.mem_range, decide_eq_true_eq]

theorem validWeeks_pick_mem (totals mins : List Int) (k : Nat)
    (h : validWeeks totals mins ≠ []) :
    (validWeeks totals mins).getD (k % (validWeeks totals mins).length) 0 ∈
      validWeeks totals mins :=
  getD_mem_of_lt _ _ _ (Nat.mod_lt _ (List.length_pos.mpr h))

theorem floor_set_dec (totals mins : List Int) (j : Nat)
    (hj : j ∈ validWeeks totals mins)
    (hfl : ∀ i < totals.length, mins.getD i 0 ≤ totals.getD i 0) :
    ∀ i < (totals.set j (totals.getD j 0 - 1)).length,
      mins.getD i 0 ≤ (totals.set j (totals.getD j 0 - 1)).getD i 0 := by
  obtain ⟨hjlen, hjlt⟩ := (mem_validWeeks totals mins j).mp hj
  intro i hi
  rw [List.length_set] at hi
  by_cases hij : i = j
  · subst hij
    rw [getD_set_self totals i _ hi]
    omega
  · rw [getD_set_other totals j i _ hij]
    exact hfl i hi

theorem sum_le_of_pointwise : ∀ (a b : List Int), a.length = b.length →
    (∀ i < b.length, a.getD i 0 ≤ b.getD i 0) → a.sum ≤ b.sum := by
  intro a
  induction a with
  | nil =>
    intro b h _
    have hb : b = [] := List.eq_nil_of_length_eq_zero h.symm
    subst hb
    simp
  | cons x xs ih =>
    intro b h hp
    cases b with
    | nil => simp at h
    | cons y ys =>
      have hx : x ≤ y := by simpa using hp 0 (by simp)
      have hrest : ∀ i < ys.length, xs.getD i 0 ≤ ys.getD i 0 := by
        intro i hi
        simpa using hp (i + 1) (by simpa using Nat.succ_lt_succ hi)
      have htail := ih ys (by simpa using h) hrest
      simp only [List.sum_cons]
      linarith

theorem rollingRepair_floor : ∀ (fuel : Nat) (o : Nat → Nat) (avg : ℚ)
    (totals mins : List Int),
    (∀ i < totals.length, mins.getD i 0 ≤ totals.getD i 0) →
    ∀ i < totals.length, mins.getD i 0 ≤ (rollingRepair fuel o avg totals mins).getD i 0 := by
  intro fuel
  induction fuel with
  | zero =>
    intro o avg totals mins hfl
    simpa only [rollingRepair] using hfl
  | succ n ih =>
    intro o avg totals mins hfl
    simp only [rollingRepair]
    by_cases hc : avg < (totals.sum : ℚ) / (totals.length : ℚ)
    · rw [if_pos hc]
      by_cases hvw : validWeeks totals mins = []
      · rw [if_pos hvw]
        exact hfl
      · rw [if_neg hvw]
        have hmem := validWeeks_pick_mem totals mins (o 0) hvw
        have hstep := floor_set_dec totals mins _ hmem hfl
        intro i hi
        refine ih (fun k => o (k + 1)) avg _ mins ?_ i ?_
        · intro i2 hi2
          exact hstep i2 hi2
        · rw [List.length_set]
          exact hi
    · rw [if_neg hc]
      exact hfl

theorem yearlyRepair_floor : ∀ (n : Nat) (o : Nat → Nat) (allowed ot : Int)
    (totals mins : List Int),
    (ot - allowed).toNat = n →
    (∀ i < totals.length, mins.getD i 0 ≤ totals.getD i 0) →
    ∀ i < totals.length, mins.getD i 0 ≤ (yearlyRepair o allowed ot totals mins).getD i 0 := by
  intro n
  induction n using Nat.strong_induction_on with
  | _ n ih =>
    intro o allowed ot totals mins hn hfl
    rw [yearlyRepair]
    by_cases hc : allowed < ot
    · rw [dif_pos hc]
      dsimp only
      by_cases hvw : validWeeks totals mins = []
      · rw [if_pos hvw]
        exact hfl
      · rw [if_neg hvw]
        have hmem := validWeeks_pick_mem totals mins (o 0) hvw
        have hstep := floor_set_dec totals mins _ hmem hfl
        intro i hi
        refine ih ((ot - 1 - allowed).toNat) (by omega) (fun k => o (k + 1)) allowed
          (ot - 1) _ mins rfl (fun i2 hi2 => hstep i2 hi2) i ?_
        rw [List.length_set]
        exact hi
    · rw [dif_neg hc]
      exact hfl

theorem yearlyRepair_overtime : ∀ (n : Nat) (o : Nat → Nat) (allowed ot : Int)
    (totals mins : List Int),
    (ot - allowed).toNat = n → 0 ≤ allowed →
    mins.length = totals.length →
    (∀ i < totals.length, mins.getD i 0 ≤ totals.getD i 0) →
    ot = totals.sum - mins.sum →
    (yearlyRepair o allowed ot totals mins).sum = mins.sum + min ot allowed := by
  intro n
  induction n using Nat.strong_induction_on with
  | _ n ih =>
    intro o allowed ot totals mins hn hal hlen hfl hsync
    rw [yearlyRepair]
    by_cases hc : allowed < ot
    · rw [dif_pos hc]
      dsimp only
      by_cases hvw : validWeeks totals mins = []
      · exfalso
        have hnone : ∀ i, i ∉ validWeeks totals mins := by
          rw [hvw]
          intro i
          exact List.not_mem_nil i
        have hpt : ∀ i < totals.length, totals.getD i 0 ≤ mins.getD i 0 := by
          intro i hi
          have := hnone i
          rw [mem_validWeeks] at this
          push_neg at this
          exact this hi
        have h1 : totals.sum ≤ mins.sum :=
          sum_le_of_pointwise totals mins hlen.symm (fun i hi => hpt i (by omega))
        omega
      · rw [if_neg hvw]
        have hmem := validWeeks_pick_mem totals mins (o 0) hvw
        obtain ⟨hjlen, _⟩ := (mem_validWeeks totals mins _).mp hmem
        have hstep := floor_set_dec totals mins _ hmem hfl
        have hsum2 := list_sum_set totals
          ((validWeeks totals mins).getD (o 0 % (validWeeks totals mins).length) 0)
          ((totals.getD ((validWeeks totals mins).getD
            (o 0 % (validWeeks totals mins).length) 0) 0) - 1) hjlen
        have hrec := ih ((ot - 1 - allowed).toNat) (by omega) (fun k => o (k + 1)) allowed
          (ot - 1) _ mins rfl hal (by rw [List.length_set]; exact hlen)
          (fun i2 hi2 => hstep i2 hi2) (by rw [hsum2]; omega)
        rw [hrec]
        have hm1 : min (ot - 1) allowed = allowed := min_eq_right (by omega)
        have hm2 : min ot allowed = allowed := min_eq_right (le_of_lt hc)
        rw [hm1, hm2]
    · rw [dif_neg hc]
      have hm : min ot allowed = ot := min_eq_left (by omega)
      rw [hm]
      omega

/- ----------------------------------------------------------------
   Claims C4 and C5: repair-loop invariants and the yearly overtime bound.
   ---------------------------------------------------------------- -/

/-- C4: whenever the weekly totals respect the rounded minimum envelopes,
both repair loops - the rolling-window reduction and the yearly-overtime
reduction - preserve that floor for every week and every random pick, since
each iteration reduces by exactly one hour a week whose total strictly
exceeds its minimum. -/
theorem claim_C4 (fuel : Nat) (o₁ o₂ : Nat → Nat) (avg : ℚ) (allowed ot : Int)
    (totals mins : List Int)
    (hfl : ∀ i < totals.length, mins.getD i 0 ≤ totals.getD i 0) :
    (∀ i < totals.length,
        mins.getD i 0 ≤ (rollingRepair fuel o₁ avg totals mins).getD i 0) ∧
    (∀ i < totals.length,
        mins.getD i 0 ≤ (yearlyRepair o₂ allowed ot totals mins).getD i 0) :=
  ⟨rollingRepair_floor fuel o₁ avg totals mins hfl,
   yearlyRepair_floor ((ot - allowed).toNat) o₂ allowed ot totals mins rfl hfl⟩

/-- C4, witness at totals [5, 7], minimums [4, 4]. -/
theorem claim_C4_witness :
    (∀ i < ([5, 7] : List Int).length,
        ([4, 4] : List Int).getD i 0 ≤ ([5, 7] : List Int).getD i 0) ∧
      ((∀ i < ([5, 7] : List Int).length,
          ([4, 4] : List Int).getD i 0 ≤
            (rollingRepair 3 (fun _ => 0) 5 [5, 7] [4, 4]).getD i 0) ∧
        (∀ i < ([5, 7] : List Int).length,
          ([4, 4] : List Int).getD i 0 ≤
            (yearlyRepair (fun _ => 0) 1 4 [5, 7] [4, 4]).getD i 0)) :=
  ⟨by decide, claim_C4 3 (fun _ => 0) (fun _ => 0) 5 1 4 [5, 7] [4, 4] (by decide)⟩

/-- C5: for configurations with 0 <= yearly_overtime_variance <=
max_yearly_overtime, for every random pick sequence and every sampled
allowance - max_yearly_overtime itself when the variance is 0, otherwise an
integer in [max(0, max_yearly_overtime - yearly_overtime_variance),
max_yearly_overtime) - the yearly overtime after the overtime-repair pass,
i.e. total realized hours minus total minimum-envelope hours, lies within
[0, max_yearly_overtime] (given the floor invariant that the repair input
satisfies by construction). -/
theorem claim_C5 (o : Nat → Nat) (max_yearly_overtime yearly_overtime_variance
      allowed ot : Int) (totals mins : List Int)
    (hv0 : 0 ≤ yearly_overtime_variance)
    (hvm : yearly_overtime_variance ≤ max_yearly_overtime)
    (hallow : (yearly_overtime_variance = 0 ∧ allowed = max_yearly_overtime) ∨
      (0 < yearly_overtime_variance ∧
        max 0 (max_yearly_overtime - yearly_overtime_variance) ≤ allowed ∧
        allowed < max_yearly_overtime))
    (hlen : mins.length = totals.length)
    (hfl : ∀ i < totals.length, mins.getD i 0 ≤ totals.getD i 0)
    (hsync : ot = totals.sum - mins.sum) :
    0 ≤ (yearlyRepair o allowed ot totals mins).sum - mins.sum ∧
      (yearlyRepair o allowed ot totals mins).sum - mins.sum ≤ max_yearly_overtime := by
  have hal : 0 ≤ allowed := by
    rcases hallow with ⟨_, h⟩ | ⟨_, h, _⟩
    · omega
    · have := le_max_left (0 : Int) (max_yearly_overtime - yearly_overtime_variance)
      omega
  have hotnn : 0 ≤ ot := by
    have := sum_le_of_pointwise mins totals hlen hfl
    omega
  have hres := yearlyRepair_overtime ((ot - allowed).toNat) o allowed ot totals mins
    rfl hal hlen hfl hsync
  rw [hres]
  have hminnn : 0 ≤ min ot allowed := le_min hotnn hal
  have hminle : min ot allowed ≤ allowed := min_le_right ot allowed
  have hle : allowed ≤ max_yearly_overtime := by
    rcases hallow with ⟨_, h⟩ | ⟨_, _, h⟩
    · omega
    · omega
  constructor
  · omega
  · omega

/-- C5, witness: totals [5, 7], minimums [4, 4], variance 1,
max_yearly_overtime 3, sampled allowance 2, initial overtime 4. -/
theorem claim_C5_witness :
    ((0 : Int) ≤ 1 ∧ (1 : Int) ≤ 3 ∧
      (((1 : Int) = 0 ∧ (2 : Int) = 3) ∨
        ((0 : Int) < 1 ∧ max 0 ((3 : Int) - 1) ≤ 2 ∧ (2 : Int) < 3)) ∧
      ([4, 4] : List Int).length = ([5, 7] : List Int).length ∧
      (∀ i < ([5, 7] : List Int).length,
        ([4, 4] : List Int).getD i 0 ≤ ([5, 7] : List Int).getD i 0) ∧
      (4 : Int) = ([5, 7] : List Int).sum - ([4, 4] : List Int).sum) ∧
    (0 ≤ (yearlyRepair (fun _ => 0) 2 4 [5, 7] [4, 4]).sum - ([4, 4] : List Int).sum ∧
      (yearlyRepair (fun _ => 0) 2 4 [5, 7] [4, 4]).sum - ([4, 4] : List Int).sum ≤ 3) :=
  ⟨⟨by decide, by decide, Or.inr (by decide), by decide, by decide, by decide⟩,
    claim_C5 (fun _ => 0) 3 1 2 4 [5, 7] [4, 4] (by decide) (by decide)
      (Or.inr (by decide)) (by decide) (by decide) (by decide)⟩

/- ----------------------------------------------------------------
   Claims C8 and C9: generate_hours_distribution.
   ---------------------------------------------------------------- -/

theorem sum_map_div (l : List ℚ) (S : ℚ) :
    (l.map (fun x => x / S)).sum = l.sum / S := by
  induction l with
  | nil => simp
  | cons x xs ih => simp [List.sum_cons, ih, add_div]

theorem forced_sum_ge (op : ℚ → ℚ → ℚ) (hop : ∀ d n, 0 ≤ d → 0 ≤ n → d ≤ op d n) :
    ∀ (dist nf : List ℚ), dist.length ≤ nf.length → (∀ d ∈ dist, 0 ≤ d) →
      (∀ x ∈ nf, 0 ≤ x) →
      dist.sum ≤ (List.zipWith (fun d a => if d = 0 then 0 else a) dist
        (List.zipWith op dist nf)).sum := by
  intro dist
  induction dist with
  | nil =>
    intro nf _ _ _
    simp
  | cons d ds ih =>
    intro nf hlen hpos hnf
    cases nf with
    | nil => simp at hlen
    | cons m ms =>
      simp only [List.zipWith_cons_cons, List.sum_cons]
      have hd : 0 ≤ d := hpos d (by simp)
      have hdle : d ≤ if d = 0 then 0 else op d m := by
        by_cases hz : d = 0
        · rw [if_pos hz, hz]
        · rw [if_neg hz]
          exact hop d m hd (hnf m (by simp))
      have htail := ih ms (by simpa using hlen)
        (fun x hx => hpos x (List.mem_cons_of_mem d hx))
        (fun x hx => hnf x (List.mem_cons_of_mem m hx))
      linarith

theorem forced_getD_zero : ∀ (dist alt : List ℚ) (i : Nat), dist.getD i 0 = 0 →
    (List.zipWith (fun d a => if d = 0 then 0 else a) dist alt).getD i 0 = 0 := by
  intro dist
  induction dist with
  | nil =>
    intro alt i _
    simp
  | cons d ds ih =>
    intro alt i hz
    cases alt with
    | nil => simp
    | cons a as =>
      cases i with
      | zero =>
        simp only [List.getD_cons_zero] at hz
        simp [List.zipWith_cons_cons, hz]
      | succ k =>
        simp only [List.getD_cons_succ] at hz
        simp only [List.zipWith_cons_cons, List.getD_cons_succ]
        exact ih as k hz

theorem map_div_getD (l : List ℚ) (S : ℚ) (i : Nat) :
    (l.map (fun x => x / S)).getD i 0 = l.getD i 0 / S := by
  induction l generalizing i with
  | nil => simp
  | cons x xs ih =>
    cases i with
    | zero => rfl
    | succ k =>
      simp only [List.map_cons, List.getD_cons_succ]
      exact ih k

theorem apply_noise_ok (dist nf : List ℚ) (noise_operand noise_type : String)
    (hop : noise_operand ∈ supportedNoiseOperands)
    (hlen : dist.length ≤ nf.length)
    (hnf : ∀ x ∈ nf, 0 ≤ x)
    (hsum : dist.sum = 1)
    (hpos : ∀ d ∈ dist, 0 ≤ d) :
    ∃ r, apply_noise dist nf noise_operand noise_type = Except.ok r ∧
      r.sum = 1 ∧ ∀ i, dist.getD i 0 = 0 → r.getD i 0 = 0 := by
  have hops : noise_operand = "add" ∨ noise_operand = "mult" := by
    simpa [supportedNoiseOperands] using hop
  rcases hops with hadd | hmult
  · subst hadd
    set forced := List.zipWith (fun d a => if d = 0 then 0 else a) dist
      (List.zipWith (fun d n => d + n) dist nf) with hforced
    have hfge : dist.sum ≤ forced.sum :=
      forced_sum_ge (fun d n => d + n)
        (fun d n _ hn => by show d ≤ d + n; linarith) dist nf hlen hpos hnf
    have hSpos : 0 < forced.sum := by rw [hsum] at hfge; linarith
    refine ⟨forced.map (fun x => x / forced.sum), rfl, ?_, ?_⟩
    · rw [sum_map_div, div_self (ne_of_gt hSpos)]
    · intro i hzi
      rw [map_div_getD, forced_getD_zero dist _ i hzi, zero_div]
  · subst hmult
    set forced := List.zipWith (fun d a => if d = 0 then 0 else a) dist
      (List.zipWith (fun d n => d * (1 + n)) dist nf) with hforced
    have hfge : dist.sum ≤ forced.sum :=
      forced_sum_ge (fun d n => d * (1 + n))
        (fun d n hd hn => by show d ≤ d * (1 + n); nlinarith) dist nf hlen hpos hnf
    have hSpos : 0 < forced.sum := by rw [hsum] at hfge; linarith
    refine ⟨forced.map (fun x => x / forced.sum), rfl, ?_, ?_⟩
    · rw [sum_map_div, div_self (ne_of_gt hSpos)]
    · intro i hzi
      rw [map_div_getD, forced_getD_zero dist _ i hzi, zero_div]

/-- C8: with noise None or 0, generate_hours_distribution returns the raw
Dirichlet draw unchanged; with a positive noise magnitude, a supported noise
type and a supported operand, on a base draw that is a probability vector
the returned vector sums to 1 and every entry whose base draw was exactly
zero is exactly zero in the output. -/
theorem claim_C8 (dist_sample : List ℚ) (v : ℚ) (noise_type noise_operand : String)
    (noise_raw : List ℚ) :
    generate_hours_distribution dist_sample none noise_type noise_operand noise_raw =
        Except.ok dist_sample ∧
    generate_hours_distribution dist_sample (some 0) noise_type noise_operand noise_raw =
        Except.ok dist_sample ∧
    (0 < v → noise_type ∈ supportedNoiseTypes → noise_operand ∈ supportedNoiseOperands →
      dist_sample.sum = 1 → (∀ d ∈ dist_sample, 0 ≤ d) →
      dist_sample.length ≤ noise_raw.length →
      ∃ r, generate_hours_distribution dist_sample (some v) noise_type noise_operand
          noise_raw = Except.ok r ∧
        r.sum = 1 ∧ ∀ i, dist_sample.getD i 0 = 0 → r.getD i 0 = 0) := by
  refine ⟨rfl, rfl, ?_⟩
  intro hv htype hoper hsum hpos hlen
  have hvne : ¬ (v = 0) := ne_of_gt hv
  have habs : ∀ (xs : List ℚ), ∀ x ∈ xs.map (fun x => |x|), 0 ≤ x := by
    intro xs x hx
    obtain ⟨y, _, rfl⟩ := List.mem_map.mp hx
    exact abs_nonneg y
  have hmem5 : noise_type = "uniform" ∨ noise_type = "gaussian" ∨
      noise_type = "exponential" ∨ noise_type = "lognormal" ∨
      noise_type = "random" := by
    simpa [supportedNoiseTypes] using htype
  rcases hmem5 with h | h | h | h | h <;> subst h
  · have hred : generate_hours_distribution dist_sample (some v) "uniform"
        noise_operand noise_raw =
        apply_noise dist_sample (noise_raw.map (fun x => |x|)) noise_operand "uniform" := by
      simp only [generate_hours_distribution]
      rw [if_neg hvne]
      rfl
    rw [hred]
    exact apply_noise_ok dist_sample _ noise_operand "uniform" hoper
      (by rw [List.length_map]; exact hlen) (habs noise_raw) hsum hpos
  · have hred : generate_hours_distribution dist_sample (some v) "gaussian"
        noise_operand noise_raw =
        apply_noise dist_sample (noise_raw.map (fun x => |x|)) noise_operand "gaussian" := by
      simp only [generate_hours_distribution]
      rw [if_neg hvne]
      rfl
    rw [hred]
    exact apply_noise_ok dist_sample _ noise_operand "gaussian" hoper
      (by rw [List.length_map]; exact hlen) (habs noise_raw) hsum hpos
  · have hred : generate_hours_distribution dist_sample (some v) "exponential"
        noise_operand noise_raw =
        apply_noise dist_sample (noise_raw.map (fun x => |x|)) noise_operand "exponential" := by
      simp only [generate_hours_distribution]
      rw [if_neg hvne]
      rfl
    rw [hred]
    exact apply_noise_ok dist_sample _ noise_operand "exponential" hoper
      (by rw [List.length_map]; exact hlen) (habs noise_raw) hsum hpos
  · have hred : generate_hours_distribution dist_sample (some v) "lognormal"
        noise_operand noise_raw =
        apply_noise dist_sample (noise_raw.map (fun x => |x|)) noise_operand "lognormal" := by
      simp only [generate_hours_distribution]
      rw [if_neg hvne]
      rfl
    rw [hred]
    exact apply_noise_ok dist_sample _ noise_operand "lognormal" hoper
      (by rw [List.length_map]; exact hlen) (habs noise_raw) hsum hpos
  · have hred : generate_hours_distribution dist_sample (some v) "random"
        noise_operand noise_raw =
        apply_noise dist_sample ((noise_raw.map (fun x => x * v)).map (fun x => |x|))
          noise_operand "random" := by
      simp only [generate_hours_distribution]
      rw [if_neg hvne]
      rfl
    rw [hred]
    exact apply_noise_ok dist_sample _ noise_operand "random" hoper
      (by rw [List.length_map, List.length_map]; exact hlen)
      (habs (noise_raw.map (fun x => x * v))) hsum hpos

/-- C8, witness at the base draw [1/2, 1/2, 0] (a probability vector with an
exact zero), noise 1, uniform noise, additive operand, raw noise draw
[1, -2, 3]. -/
theorem claim_C8_witness :
    generate_hours_distribution [1/2, 1/2, 0] none "uniform" "add" [1, -2, 3] =
        Except.ok [1/2, 1/2, 0] ∧
      ∃ r, generate_hours_distribution [1/2, 1/2, 0] (some 1) "uniform" "add"
          [1, -2, 3] = Except.ok r ∧
        r.sum = 1 ∧ ∀ i, ([1/2, 1/2, 0] : List ℚ).getD i 0 = 0 → r.getD i 0 = 0 :=
  ⟨(claim_C8 [1/2, 1/2, 0] 1 "uniform" "add" [1, -2, 3]).1,
    (claim_C8 [1/2, 1/2, 0] 1 "uniform" "add" [1, -2, 3]).2.2 (by norm_num)
      (by decide) (by decide) (by norm_num) (by norm_num) (by decide)⟩

theorem apply_noise_error_iff (dist nf : List ℚ) (op t : String) :
    (∃ e, apply_noise dist nf op t = Except.error e) ↔ op ∉ supportedNoiseOperands := by
  by_cases h1 : op = "add"
  · constructor
    · rintro ⟨e, he⟩
      rw [apply_noise, if_pos h1] at he
      exact Except.noConfusion he
    · intro h
      exact absurd (by rw [h1]; exact List.mem_cons_self _ _) h
  · by_cases h2 : op = "mult"
    · constructor
      · rintro ⟨e, he⟩
        rw [apply_noise, if_neg h1, if_pos h2] at he
        exact Except.noConfusion he
      · intro h
        refine absurd ?_ h
        rw [h2]
        exact List.mem_cons_of_mem _ (List.mem_cons_self _ _)
    · constructor
      · intro _
        intro hmem
        simp only [supportedNoiseOperands, List.mem_cons, List.not_mem_nil,
          or_false] at hmem
        rcases hmem with h | h
        · exact h1 h
        · exact h2 h
      · intro _
        exact ⟨"Unsupported noise operand: " ++ t,
          by rw [apply_noise, if_neg h1, if_neg h2]⟩

/-- C9, counterexample to the claim as stated: with noise None the function
returns the raw draw at line 91-92 before any validation, so it raises no
error although the configured noise type "bogus" is not one of the five
supported distributions. -/
theorem claim_C9_counterexample :
    generate_hours_distribution [1] none "bogus" "add" [] = Except.ok [1] ∧
      "bogus" ∉ supportedNoiseTypes := ⟨rfl, by decide⟩

/-- C9 (amended): generate_hours_distribution raises an error exactly when a
noise magnitude is configured (not None) and nonzero AND the noise type is
not one of the five supported distributions or the noise operand is not one
of the two supported combination operators; with noise None it never raises. -/
theorem claim_C9 (dist_sample : List ℚ) (v : ℚ) (noise_type noise_operand : String)
    (noise_raw : List ℚ) :
    (¬ ∃ e, generate_hours_distribution dist_sample none noise_type noise_operand
        noise_raw = Except.error e) ∧
    ((∃ e, generate_hours_distribution dist_sample (some v) noise_type noise_operand
        noise_raw = Except.error e) ↔
      (v ≠ 0 ∧ (noise_type ∉ supportedNoiseTypes ∨
        noise_operand ∉ supportedNoiseOperands))) := by
  constructor
  · rintro ⟨e, he⟩
    exact Except.noConfusion he
  · by_cases hv : v = 0
    · subst hv
      have hred : generate_hours_distribution dist_sample (some 0) noise_type
          noise_operand noise_raw = Except.ok dist_sample := rfl
      rw [hred]
      constructor
      · rintro ⟨e, he⟩
        exact Except.noConfusion he
      · rintro ⟨hne, _⟩
        exact absurd rfl hne
    · by_cases ht : noise_type ∈ supportedNoiseTypes
      · have hmem5 : noise_type = "uniform" ∨ noise_type = "gaussian" ∨
            noise_type = "exponential" ∨ noise_type = "lognormal" ∨
            noise_type = "random" := by
          simpa [supportedNoiseTypes] using ht
        have hok : ∃ nf, generate_hours_distribution dist_sample (some v) noise_type
            noise_operand noise_raw = apply_noise dist_sample nf noise_operand noise_type := by
          rcases hmem5 with h | h | h | h | h <;> subst h
          · exact ⟨_, by simp only [generate_hours_distribution]; rw [if_neg hv]; rfl⟩
          · exact ⟨_, by simp only [generate_hours_distribution]; rw [if_neg hv]; rfl⟩
          · exact ⟨_, by simp only [generate_hours_distribution]; rw [if_neg hv]; rfl⟩
          · exact ⟨_, by simp only [generate_hours_distribution]; rw [if_neg hv]; rfl⟩
          · exact ⟨_, by simp only [generate_hours_distribution]; rw [if_neg hv]; rfl⟩
        obtain ⟨nf, hred⟩ := hok
        rw [hred, apply_noise_error_iff]
        constructor
        · intro hop
          exact ⟨hv, Or.inr hop⟩
        · rintro ⟨_, h | h⟩
          · exact absurd ht h
          · exact h
      · have hm : ¬ (noise_type = "uniform" ∨ noise_type = "gaussian" ∨
            noise_type = "exponential" ∨ noise_type = "lognormal" ∨
            noise_type = "random") := by
          intro c
          exact ht (by simpa [supportedNoiseTypes] using c)
        push_neg at hm
        obtain ⟨h1, h2, h3, h4, h5⟩ := hm
        have hred : generate_hours_distribution dist_sample (some v) noise_type
            noise_operand noise_raw =
            Except.error ("Unsupported noise type: " ++ noise_type) := by
          simp only [generate_hours_distribution]
          rw [if_neg hv, if_neg h1, if_neg h2, if_neg h3, if_neg h4, if_neg h5]
        rw [hred]
        constructor
        · intro _
          exact ⟨hv, Or.inl ht⟩
        · intro _
          exact ⟨_, rfl⟩
